import Mathlib

/-!
Verification of the archdiff reconciliation engine (src/main.rs).

The program audits a live filesystem against an Arch package database.
We embed `App::run` and its helpers shallowly:

* paths and digests are lists of characters (Rust `String`, byte order and
  codepoint order agree on valid UTF-8);
* the external collaborators (gitignore matcher, content hasher, `stat`) are
  an abstract `World` of functions, mirroring the interfaces actually used:
  `Gitignore::matched`, `Gitignore::matched_path_or_any_parents`,
  `hash_file_logged` (returns `Option`, failures are logged and skipped) and
  `std::fs::metadata` (only success/failure is observed);
* a filesystem tree is walked exactly as `WalkDir` with `filter_entry` does:
  depth-first preorder, a rejected entry is skipped together with its whole
  subtree, and error items are dropped by `filter_map_error`;
* the `HashSet` of owned files and the `HashMap` of backup files are embedded
  as lists (an enumeration in an arbitrary order); `remove` is `List.erase`
  on the set and a key filter on the map.
-/

namespace Archdiff

/-- Rust `String` paths, as lists of characters. -/
abbrev Path := List Char

/-- Content digests as returned by the hasher (md5 hex strings in the source). -/
abbrev Digest := List Char

/-- Result of a gitignore match: `ignore::Match` with the glob payload erased. -/
inductive MatchKind where
  | none
  | ignore
  | whitelist
deriving DecidableEq

/-- Mirrors `Match::is_none`. -/
def MatchKind.isNone : MatchKind → Bool
  | .none => true
  | _ => false

/-- Mirrors `Match::is_ignore`. -/
def MatchKind.isIgnore : MatchKind → Bool
  | .ignore => true
  | _ => false

/-- The four divergence classifications; the source uses the literal
characters `?`, `R`, `D`, `B`. -/
inductive Tag where
  | untracked
  | repoDrift
  | deleted
  | backupDrift
deriving DecidableEq

/-- The character printed for each tag. -/
def Tag.char : Tag → Char
  | .untracked => '?'
  | .repoDrift => 'R'
  | .deleted => 'D'
  | .backupDrift => 'B'

/-- Position of the pass that can emit this tag, in program order:
untracked walk, repo walk, deleted check, backup check. -/
def Tag.idx : Tag → Nat
  | .untracked => 0
  | .repoDrift => 1
  | .deleted => 2
  | .backupDrift => 3

/-- A divergence record: the `(char, String)` pairs pushed into `all`. -/
structure Record where
  tag : Tag
  path : Path
deriving DecidableEq

/-- The external collaborators consulted by `App::run`, as pure functions:
the gitignore matcher (both query forms), the content hasher
(`hash_file_logged`: `none` means the failure was logged and the path is
skipped), and `std::fs::metadata` reduced to its success bit. -/
structure World where
  matched : Path → Bool → MatchKind
  matchedParents : Path → Bool → MatchKind
  hash : Path → Option Digest
  metadataOk : Path → Bool

/-- The four path-valued command line options of `Args`. -/
structure Args where
  root : Path
  dbpath : Path
  repo : Path
  ignore : Path
deriving DecidableEq

/-- A filesystem tree as seen by a `WalkDir` traversal: a successful entry
carries its (absolute) path, its file-type directory bit and its children;
an error item carries nothing we model (its message is only logged). -/
inductive FSEntry where
  | ok (path : Path) (isDir : Bool) (children : List FSEntry)
  | err

/-- Walk a forest as `WalkDir` with `filter_entry pred` followed by
`filter_map(filter_map_error)` does: depth-first preorder; an entry rejected
by `pred` is skipped together with its entire subtree; error items are
dropped (logged only). -/
def walkList (pred : Path → Bool → Bool) : List FSEntry → List (Path × Bool)
  | [] => []
  | .err :: es => walkList pred es
  | .ok p d cs :: es =>
    if pred p d then (p, d) :: (walkList pred cs ++ walkList pred es)
    else walkList pred es

/-- The entries yielded by walking a single tree root. -/
def walkEntries (pred : Path → Bool → Bool) (t : FSEntry) : List (Path × Bool) :=
  walkList pred [t]

/-- Lexicographic string comparison, as Rust `str::cmp` restricted to
"less or equal": byte order on UTF-8 agrees with codepoint order. -/
def strLe : Path → Path → Bool
  | [], _ => true
  | _ :: _, [] => false
  | a :: as, b :: bs => if a < b then true else if b < a then false else strLe as bs

/-- Mirrors `App::new`: pushes a trailing `/` onto a directory option when it
is missing, exactly as `args.root.push('/')` guarded by `ends_with('/')`. -/
def normalizeDir (p : Path) : Path :=
  if p.getLast? = some '/' then p else p ++ ['/']

/-- Mirrors the mutation `App::new` performs on `Args` before constructing the
`App`: only `root` and `repo` are touched. -/
def normalizeArgs (a : Args) : Args :=
  ⟨normalizeDir a.root, a.dbpath, normalizeDir a.repo, a.ignore⟩

/-- The untracked-file walk of `App::run`: entries are pruned whenever
`self.ignore.matched(de.path(), de.file_type().is_dir())` is not `None`. -/
def liveEntries (w : World) (liveTree : FSEntry) : List (Path × Bool) :=
  walkEntries (fun p d => (w.matched p d).isNone) liveTree

/-- The repo walk of `App::run`: no `filter_entry` at all, errors dropped. -/
def repoEntries (repoTree : FSEntry) : List (Path × Bool) :=
  walkEntries (fun _ _ => true) repoTree

/-- Pass 1 of `App::run` ("untracked files on disk"): for every non-directory
entry of the filtered walk, strip the first `rootLen` characters; if the
relative path is in `pkg_files`, remove it silently, otherwise push a `?`
record. Returns the shrunk set together with the pushed records, in push
order. -/
def pass1 (rootLen : Nat) : List (Path × Bool) → List Path → List Path × List Record
  | [], s => (s, [])
  | (p, d) :: rest, s =>
    if d then pass1 rootLen rest s
    else if s.contains (p.drop rootLen) then pass1 rootLen rest (s.erase (p.drop rootLen))
    else
      ((pass1 rootLen rest s).1,
        ⟨Tag.untracked, p.drop rootLen⟩ :: (pass1 rootLen rest s).2)

/-- Pass 2 of `App::run` ("repo files that have been changed"): for every
non-directory entry of the unfiltered repo walk, strip `repoLen` characters,
remove the relative path from `pkg_backup_files` (before any hashing), then
hash the repo copy and the live copy; a failed hash skips the entry (logged),
differing hashes push an `R` record. The pass receives only the hasher: the
exclusion matcher is never consulted. Returns the shrunk map and the records
in push order. -/
def pass2 (root : Path) (repoLen : Nat) (hash : Path → Option Digest) :
    List (Path × Bool) → List (Path × Digest) → List (Path × Digest) × List Record
  | [], m => (m, [])
  | (p, d) :: rest, m =>
    if d then pass2 root repoLen hash rest m
    else
      match hash p, hash (root ++ p.drop repoLen) with
      | some repoHash, some actualHash =>
        if repoHash == actualHash then
          pass2 root repoLen hash rest (m.filter fun e => !(e.1 == p.drop repoLen))
        else
          ((pass2 root repoLen hash rest (m.filter fun e => !(e.1 == p.drop repoLen))).1,
            ⟨Tag.repoDrift, p.drop repoLen⟩ ::
              (pass2 root repoLen hash rest (m.filter fun e => !(e.1 == p.drop repoLen))).2)
      | _, _ => pass2 root repoLen hash rest (m.filter fun e => !(e.1 == p.drop repoLen))

/-- Pass 3 body of `App::run` ("deleted files from packages"): skip a path the
matcher directly marks ignored (queried with `is_dir = false`); otherwise emit
a `D` record exactly when `std::fs::metadata` fails. -/
def deletedCheck (root : Path) (w : World) (p : Path) : Option Record :=
  let fp := root ++ p
  if (w.matched fp false).isIgnore then none
  else if w.metadataOk fp then none
  else some ⟨Tag.deleted, p⟩

/-- Pass 4 body of `App::run` ("backup files that have been changed"): skip a
path `matched_path_or_any_parents` marks ignored; a failed hash skips the
entry (logged); otherwise emit a `B` record exactly when the computed hash
differs from the recorded one. -/
def backupCheck (root : Path) (w : World) (e : Path × Digest) : Option Record :=
  let fp := root ++ e.1
  if (w.matchedParents fp false).isIgnore then none
  else
    match w.hash fp with
    | Option.none => none
    | Option.some actualHash => if e.2 == actualHash then none else some ⟨Tag.backupDrift, e.1⟩

/-- The unsorted contents of `all` at the end of `App::run`: the records of
the four passes in program order. `pkg_files` and `pkg_backup_files` are the
loader's outputs, given as an enumeration of the hash set and hash map in an
arbitrary order. -/
def runRecords (root repo : Path) (w : World) (liveTree repoTree : FSEntry)
    (pkg_files : List Path) (pkg_backup_files : List (Path × Digest)) : List Record :=
  let p1 := pass1 root.length (liveEntries w liveTree) pkg_files
  let p2 := pass2 root repo.length w.hash (repoEntries repoTree) pkg_backup_files
  p1.2 ++ p2.2 ++ p1.1.filterMap (deletedCheck root w) ++ p2.1.filterMap (backupCheck root w)

/-- The comparator of `all.sort_by(|(_, a), (_, b)| a.cmp(b))`: the relative
path alone, the tag takes no part. -/
def recPathLe (x y : Record) : Bool := strLe x.path y.path

/-- The sorted record list; `Vec::sort_by` is a stable sort. -/
def runSorted (root repo : Path) (w : World) (liveTree repoTree : FSEntry)
    (pkg_files : List Path) (pkg_backup_files : List (Path × Digest)) : List Record :=
  (runRecords root repo w liveTree repoTree pkg_files pkg_backup_files).mergeSort recPathLe

/-- One output line, `println!("{} {}{}", c, &root, n)`: the tag character, a
space, then the root re-joined with the relative path. -/
def lineOf (root : Path) (r : Record) : Path :=
  r.tag.char :: ' ' :: (root ++ r.path)

/-- The full standard output of `App::run`, as a list of lines. -/
def runOutput (root repo : Path) (w : World) (liveTree repoTree : FSEntry)
    (pkg_files : List Path) (pkg_backup_files : List (Path × Digest)) : List Path :=
  (runSorted root repo w liveTree repoTree pkg_files pkg_backup_files).map (lineOf root)

/-- The relative paths of the non-directory entries of a walk, in walk order:
the candidates a pass derives records from. -/
def relsOf (n : Nat) (es : List (Path × Bool)) : List Path :=
  es.filterMap fun e => if e.2 then Option.none else Option.some (e.1.drop n)

/-- A world whose matcher ignores every path: used to instantiate theorems at
a concrete input. -/
def wIgnoreAll : World :=
  ⟨fun _ _ => MatchKind.ignore, fun _ _ => MatchKind.ignore, fun _ => Option.none, fun _ => false⟩

/-- A world whose matcher matches nothing, whose hasher always fails and whose
`stat` always fails: used to instantiate theorems at a concrete input. -/
def wNoneAll : World :=
  ⟨fun _ _ => MatchKind.none, fun _ _ => MatchKind.none, fun _ => Option.none, fun _ => false⟩

/-- A world where only the parent-aware matcher reports an exclusion: used to
instantiate theorems at a concrete input. -/
def wParentIgnore : World :=
  ⟨fun _ _ => MatchKind.none, fun _ _ => MatchKind.ignore, fun _ => Option.none, fun _ => false⟩

/-- A world whose hasher gives the repo copy of `/r/a` a digest different from
every live file: used to instantiate theorems at a concrete input. -/
def wRepoDiff : World :=
  ⟨fun _ _ => MatchKind.none, fun _ _ => MatchKind.none,
    fun q => if q = ['/', 'r', '/', 'a'] then Option.some ['x'] else Option.some ['y'],
    fun _ => true⟩

/-- Tie discipline of the unsorted record list: records with equal paths occur
in strictly increasing pass order. This is what makes the stable sort
deterministic. -/
def tieLT (x y : Record) : Prop := x.path = y.path → x.tag.idx < y.tag.idx

/-- The order the sorted report actually realizes: by path, and among equal
paths by the pass that produced the record. Antisymmetric, which the bare
path comparator `recPathLe` is not. -/
def recOrdered (x y : Record) : Prop :=
  strLe x.path y.path = true ∧ (x.path = y.path → x.tag.idx ≤ y.tag.idx)

/-! Elementary facts about the lexicographic comparison. -/

theorem strLe_refl (a : Path) : strLe a a = true := by
  induction a with
  | nil => rfl
  | cons c cs ih => simp [strLe, ih]

theorem strLe_total (a b : Path) : strLe a b = true ∨ strLe b a = true := by
  induction a generalizing b with
  | nil => exact Or.inl rfl
  | cons c cs ih =>
    cases b with
    | nil => exact Or.inr rfl
    | cons d ds =>
      rcases lt_trichotomy c d with h | h | h
      · left; simp [strLe, h]
      · subst h
        rcases ih ds with h' | h'
        · left; simp [strLe, h']
        · right; simp [strLe, h']
      · right; simp [strLe, h]

theorem strLe_antisymm {a b : Path} (hab : strLe a b = true) (hba : strLe b a = true) :
    a = b := by
  induction a generalizing b with
  | nil =>
    cases b with
    | nil => rfl
    | cons d ds => simp [strLe] at hba
  | cons c cs ih =>
    cases b with
    | nil => simp [strLe] at hab
    | cons d ds =>
      rcases lt_trichotomy c d with h | h | h
      · simp [strLe, h, not_lt_of_gt h] at hba
      · subst h
        simp only [strLe, lt_irrefl, if_false] at hab hba
        exact congrArg (c :: ·) (ih hab hba)
      · simp [strLe, h, not_lt_of_gt h] at hab

theorem strLe_trans {a b c : Path} (hab : strLe a b = true) (hbc : strLe b c = true) :
    strLe a c = true := by
  induction a generalizing b c with
  | nil => rfl
  | cons x xs ih =>
    cases b with
    | nil => simp [strLe] at hab
    | cons y ys =>
      cases c with
      | nil => simp [strLe] at hbc
      | cons z zs =>
        rcases lt_trichotomy x y with hxy | hxy | hxy
        · rcases lt_trichotomy y z with hyz | hyz | hyz
          · simp [strLe, lt_trans hxy hyz]
          · subst hyz; simp [strLe, hxy]
          · simp [strLe, hyz, not_lt_of_gt hyz] at hbc
        · subst hxy
          rcases lt_trichotomy x z with hyz | hyz | hyz
          · simp [strLe, hyz]
          · subst hyz
            simp only [strLe, lt_irrefl, if_false] at hab hbc ⊢
            exact ih hab hbc
          · simp [strLe, hyz, not_lt_of_gt hyz] at hbc
        · simp [strLe, hxy, not_lt_of_gt hxy] at hab

theorem strLe_append_left (r a b : Path) : strLe (r ++ a) (r ++ b) = strLe a b := by
  induction r with
  | nil => rfl
  | cons c cs ih => simp [strLe, ih]

/-! Facts about the filtered walk. -/

theorem mem_walkList_pred {pred : Path → Bool → Bool} {es : List FSEntry}
    {e : Path × Bool} (h : e ∈ walkList pred es) : pred e.1 e.2 = true := by
  induction es using walkList.induct pred with
  | case1 => simp [walkList] at h
  | case2 es ih => rw [walkList] at h; exact ih h
  | case3 p d cs es hp ih1 ih2 =>
    rw [walkList, if_pos hp] at h
    rcases List.mem_cons.mp h with h1 | h1
    · subst h1; exact hp
    · rcases List.mem_append.mp h1 with h2 | h2
      · exact ih1 h2
      · exact ih2 h2
  | case4 p d cs es hp ih =>
    rw [walkList, if_neg hp] at h
    exact ih h

/-! Facts about pass 1, the untracked-file walk. Three step equations remove
the branching from inductions. -/

theorem contains_iff_mem {s : List Path} {x : Path} : s.contains x = true ↔ x ∈ s := by
  simp [List.contains]

theorem perm_cons_erase_path {a : Path} {l : List Path} (h : a ∈ l) :
    l.Perm (a :: l.erase a) := by
  obtain ⟨l₁, l₂, -, rfl, he⟩ := List.exists_erase_eq h
  rw [he]
  exact List.perm_middle

theorem perm_erase_path (a : Path) {l₁ l₂ : List Path} (p : l₁.Perm l₂) :
    (l₁.erase a).Perm (l₂.erase a) := by
  by_cases h₁ : a ∈ l₁
  · have h₂ : a ∈ l₂ := p.subset h₁
    exact ((perm_cons_erase_path h₁).symm.trans (p.trans (perm_cons_erase_path h₂))).cons_inv
  · have h₂ : a ∉ l₂ := fun h => h₁ (p.mem_iff.mpr h)
    rw [List.erase_of_not_mem h₁, List.erase_of_not_mem h₂]
    exact p

theorem pass1_cons_dir (n : Nat) (p : Path) (rest : List (Path × Bool)) (s : List Path) :
    pass1 n ((p, true) :: rest) s = pass1 n rest s := by
  rw [pass1, if_pos rfl]

theorem pass1_cons_file_owned (n : Nat) {p : Path} (rest : List (Path × Bool)) {s : List Path}
    (hc : p.drop n ∈ s) :
    pass1 n ((p, false) :: rest) s = pass1 n rest (s.erase (p.drop n)) := by
  rw [pass1, if_neg Bool.false_ne_true, if_pos (contains_iff_mem.mpr hc)]

theorem pass1_cons_file_new (n : Nat) {p : Path} (rest : List (Path × Bool)) {s : List Path}
    (hc : p.drop n ∉ s) :
    pass1 n ((p, false) :: rest) s =
      ((pass1 n rest s).1, Record.mk Tag.untracked (p.drop n) :: (pass1 n rest s).2) := by
  rw [pass1, if_neg Bool.false_ne_true, if_neg (fun h => hc (contains_iff_mem.mp h))]

theorem relsOf_cons_dir (n : Nat) (p : Path) (rest : List (Path × Bool)) :
    relsOf n ((p, true) :: rest) = relsOf n rest := by
  simp [relsOf]

theorem relsOf_cons_file (n : Nat) (p : Path) (rest : List (Path × Bool)) :
    relsOf n ((p, false) :: rest) = p.drop n :: relsOf n rest := by
  simp [relsOf]

theorem pass1_fst_sublist (n : Nat) (es : List (Path × Bool)) (s : List Path) :
    List.Sublist (pass1 n es s).1 s := by
  induction es generalizing s with
  | nil => simp [pass1]
  | cons e rest ih =>
    obtain ⟨p, d⟩ := e
    cases d with
    | true => rw [pass1_cons_dir]; exact ih s
    | false =>
      by_cases hc : p.drop n ∈ s
      · rw [pass1_cons_file_owned n rest hc]
        exact (ih _).trans (List.erase_sublist _ _)
      · rw [pass1_cons_file_new n rest hc]
        exact ih s

theorem pass1_mem_fst {n : Nat} {es : List (Path × Bool)} {s : List Path}
    (hnd : s.Nodup) {P : Path} :
    P ∈ (pass1 n es s).1 ↔ P ∈ s ∧ ∀ e ∈ es, e.2 = false → ¬ e.1.drop n = P := by
  induction es generalizing s with
  | nil => simp [pass1]
  | cons e rest ih =>
    obtain ⟨p, d⟩ := e
    cases d with
    | true =>
      rw [pass1_cons_dir, ih hnd]
      simp
    | false =>
      by_cases hc : p.drop n ∈ s
      · rw [pass1_cons_file_owned n rest hc,
          ih (hnd.sublist (List.erase_sublist _ _)), hnd.mem_erase_iff]
        constructor
        · rintro ⟨⟨hne, hPs⟩, hrest⟩
          refine ⟨hPs, ?_⟩
          intro e he hef
          rcases List.mem_cons.mp he with rfl | he'
          · exact fun h => hne h.symm
          · exact hrest e he' hef
        · rintro ⟨hPs, hall⟩
          refine ⟨⟨?_, hPs⟩, ?_⟩
          · exact fun h => hall (p, false) (List.mem_cons_self _ _) rfl h.symm
          · exact fun e he hef => hall e (List.mem_cons.mpr (Or.inr he)) hef
      · rw [pass1_cons_file_new n rest hc]
        simp only
        rw [ih hnd]
        constructor
        · rintro ⟨hPs, hrest⟩
          refine ⟨hPs, ?_⟩
          intro e he hef
          rcases List.mem_cons.mp he with rfl | he'
          · exact fun h => hc (h ▸ hPs)
          · exact hrest e he' hef
        · rintro ⟨hPs, hall⟩
          exact ⟨hPs, fun e he hef => hall e (List.mem_cons.mpr (Or.inr he)) hef⟩

theorem pass1_snd_tag {n : Nat} {es : List (Path × Bool)} {s : List Path}
    {r : Record} (h : r ∈ (pass1 n es s).2) : r.tag = Tag.untracked := by
  induction es generalizing s with
  | nil => simp [pass1] at h
  | cons e rest ih =>
    obtain ⟨p, d⟩ := e
    cases d with
    | true => rw [pass1_cons_dir] at h; exact ih h
    | false =>
      by_cases hc : p.drop n ∈ s
      · rw [pass1_cons_file_owned n rest hc] at h; exact ih h
      · rw [pass1_cons_file_new n rest hc] at h
        rcases List.mem_cons.mp h with rfl | h'
        · rfl
        · exact ih h'

theorem pass1_snd_paths_sublist (n : Nat) (es : List (Path × Bool)) (s : List Path) :
    List.Sublist ((pass1 n es s).2.map Record.path) (relsOf n es) := by
  induction es generalizing s with
  | nil => simp [pass1, relsOf]
  | cons e rest ih =>
    obtain ⟨p, d⟩ := e
    cases d with
    | true =>
      rw [pass1_cons_dir, relsOf_cons_dir]
      exact ih s
    | false =>
      rw [relsOf_cons_file]
      by_cases hc : p.drop n ∈ s
      · rw [pass1_cons_file_owned n rest hc]
        exact (ih _).trans (List.sublist_cons_self _ _)
      · rw [pass1_cons_file_new n rest hc]
        simp only [List.map_cons]
        exact List.Sublist.cons₂ _ (ih s)

theorem pass1_mem_snd_rel {n : Nat} {es : List (Path × Bool)} {s : List Path}
    {q : Path} (h : Record.mk Tag.untracked q ∈ (pass1 n es s).2) : q ∈ relsOf n es :=
  (pass1_snd_paths_sublist n es s).subset (List.mem_map.mpr ⟨_, h, rfl⟩)

theorem pass1_not_reported {n : Nat} {es : List (Path × Bool)} {s : List Path}
    (hnd : s.Nodup) (hrnd : (relsOf n es).Nodup) {P : Path} (hP : P ∈ s) :
    Record.mk Tag.untracked P ∉ (pass1 n es s).2 := by
  induction es generalizing s with
  | nil => simp [pass1]
  | cons e rest ih =>
    obtain ⟨p, d⟩ := e
    cases d with
    | true =>
      rw [relsOf_cons_dir] at hrnd
      rw [pass1_cons_dir]
      exact ih hnd hrnd hP
    | false =>
      rw [relsOf_cons_file, List.nodup_cons] at hrnd
      by_cases hc : p.drop n ∈ s
      · rw [pass1_cons_file_owned n rest hc]
        by_cases hrel : p.drop n = P
        · subst hrel
          intro hmem
          exact hrnd.1 (pass1_mem_snd_rel hmem)
        · exact ih (hnd.sublist (List.erase_sublist _ _)) hrnd.2
            (hnd.mem_erase_iff.mpr ⟨fun h => hrel h.symm, hP⟩)
      · rw [pass1_cons_file_new n rest hc]
        intro hmem
        rcases List.mem_cons.mp hmem with h | h
        · exact hc (by rw [show p.drop n = P from by simpa using congrArg Record.path h.symm]; exact hP)
        · exact ih hnd hrnd.2 hP h

theorem pass1_reported {n : Nat} {es : List (Path × Bool)} {s : List Path}
    {Q : Path} (hQ : Q ∉ s) (hobs : Q ∈ relsOf n es) :
    Record.mk Tag.untracked Q ∈ (pass1 n es s).2 := by
  induction es generalizing s with
  | nil => simp [relsOf] at hobs
  | cons e rest ih =>
    obtain ⟨p, d⟩ := e
    cases d with
    | true =>
      rw [relsOf_cons_dir] at hobs
      rw [pass1_cons_dir]
      exact ih hQ hobs
    | false =>
      rw [relsOf_cons_file] at hobs
      by_cases hc : p.drop n ∈ s
      · rw [pass1_cons_file_owned n rest hc]
        rcases List.mem_cons.mp hobs with rfl | hobs'
        · exact absurd hc hQ
        · exact ih (fun h => hQ (List.erase_subset _ _ h)) hobs'
      · rw [pass1_cons_file_new n rest hc]
        rcases List.mem_cons.mp hobs with rfl | hobs'
        · exact List.mem_cons_self _ _
        · exact List.mem_cons.mpr (Or.inr (ih hQ hobs'))

theorem pass1_perm {n : Nat} {es : List (Path × Bool)} {s₁ s₂ : List Path}
    (hp : s₁.Perm s₂) :
    (pass1 n es s₁).1.Perm (pass1 n es s₂).1 ∧ (pass1 n es s₁).2 = (pass1 n es s₂).2 := by
  induction es generalizing s₁ s₂ with
  | nil => exact ⟨hp, rfl⟩
  | cons e rest ih =>
    obtain ⟨p, d⟩ := e
    cases d with
    | true =>
      rw [pass1_cons_dir, pass1_cons_dir]
      exact ih hp
    | false =>
      by_cases hc : p.drop n ∈ s₁
      · rw [pass1_cons_file_owned n rest hc,
          pass1_cons_file_owned n rest (hp.mem_iff.mp hc)]
        exact ih (perm_erase_path _ hp)
      · rw [pass1_cons_file_new n rest hc,
          pass1_cons_file_new n rest (fun h => hc (hp.mem_iff.mpr h))]
        rcases ih hp with ⟨h1, h2⟩
        exact ⟨h1, by rw [h2]⟩

/-! Facts about pass 2, the repo-drift walk. -/

theorem pass2_cons_dir (root : Path) (n : Nat) (hs : Path → Option Digest) (p : Path)
    (rest : List (Path × Bool)) (m : List (Path × Digest)) :
    pass2 root n hs ((p, true) :: rest) m = pass2 root n hs rest m := by
  rw [pass2, if_pos rfl]

theorem pass2_cons_file_skip (root : Path) (n : Nat) {hs : Path → Option Digest} {p : Path}
    (rest : List (Path × Bool)) (m : List (Path × Digest))
    (hskip : hs p = Option.none ∨ hs (root ++ p.drop n) = Option.none) :
    pass2 root n hs ((p, false) :: rest) m =
      pass2 root n hs rest (m.filter fun e => !(e.1 == p.drop n)) := by
  rw [pass2, if_neg Bool.false_ne_true]
  rcases hskip with h | h
  · rw [h]
  · rw [h]
    cases hs p <;> rfl

theorem pass2_cons_file_eq (root : Path) (n : Nat) {hs : Path → Option Digest} {p : Path}
    (rest : List (Path × Bool)) (m : List (Path × Digest)) {rh ah : Digest}
    (hp : hs p = Option.some rh) (ha : hs (root ++ p.drop n) = Option.some ah)
    (heq : (rh == ah) = true) :
    pass2 root n hs ((p, false) :: rest) m =
      pass2 root n hs rest (m.filter fun e => !(e.1 == p.drop n)) := by
  rw [pass2, if_neg Bool.false_ne_true, hp, ha]
  simp only [heq, if_true]

theorem pass2_cons_file_ne (root : Path) (n : Nat) {hs : Path → Option Digest} {p : Path}
    (rest : List (Path × Bool)) (m : List (Path × Digest)) {rh ah : Digest}
    (hp : hs p = Option.some rh) (ha : hs (root ++ p.drop n) = Option.some ah)
    (hne : (rh == ah) = false) :
    pass2 root n hs ((p, false) :: rest) m =
      ((pass2 root n hs rest (m.filter fun e => !(e.1 == p.drop n))).1,
        Record.mk Tag.repoDrift (p.drop n) ::
          (pass2 root n hs rest (m.filter fun e => !(e.1 == p.drop n))).2) := by
  rw [pass2, if_neg Bool.false_ne_true, hp, ha]
  simp only [hne, Bool.false_eq_true, if_false]

theorem pass2_fst_eq (root : Path) (n : Nat) (hs : Path → Option Digest)
    (es : List (Path × Bool)) (m : List (Path × Digest)) :
    (pass2 root n hs es m).1 = m.filter fun e => !((relsOf n es).contains e.1) := by
  induction es generalizing m with
  | nil =>
    rw [pass2]
    simp [relsOf]
  | cons e rest ih =>
    obtain ⟨p, d⟩ := e
    cases d with
    | true =>
      rw [pass2_cons_dir, relsOf_cons_dir, ih]
    | false =>
      have step : ∀ m' : List (Path × Digest),
          (pass2 root n hs rest (m'.filter fun e => !(e.1 == p.drop n))).1 =
            m'.filter fun e => !((relsOf n ((p, false) :: rest)).contains e.1) := by
        intro m'
        rw [ih, List.filter_filter, relsOf_cons_file]
        apply List.filter_congr
        intro a _
        rw [List.contains_cons, Bool.not_or, Bool.and_comm]
      cases hp : hs p with
      | none => rw [pass2_cons_file_skip root n rest m (Or.inl hp)]; exact step m
      | some rh =>
        cases ha : hs (root ++ p.drop n) with
        | none => rw [pass2_cons_file_skip root n rest m (Or.inr ha)]; exact step m
        | some ah =>
          cases hcmp : rh == ah with
          | true => rw [pass2_cons_file_eq root n rest m hp ha hcmp]; exact step m
          | false => rw [pass2_cons_file_ne root n rest m hp ha hcmp]; exact step m

theorem pass2_mem_snd {root : Path} {n : Nat} {hs : Path → Option Digest}
    {es : List (Path × Bool)} {m : List (Path × Digest)} {r : Record} :
    r ∈ (pass2 root n hs es m).2 ↔
      ∃ p, (p, false) ∈ es ∧ r = Record.mk Tag.repoDrift (p.drop n) ∧
        ∃ rh ah, hs p = Option.some rh ∧ hs (root ++ p.drop n) = Option.some ah ∧
          (rh == ah) = false := by
  induction es generalizing m with
  | nil =>
    rw [pass2]
    simp
  | cons e rest ih =>
    obtain ⟨p, d⟩ := e
    cases d with
    | true =>
      rw [pass2_cons_dir, ih]
      constructor
      · rintro ⟨q, hq, hrest⟩
        exact ⟨q, List.mem_cons.mpr (Or.inr hq), hrest⟩
      · rintro ⟨q, hq, hrest⟩
        rcases List.mem_cons.mp hq with h | h
        · cases h
        · exact ⟨q, h, hrest⟩
    | false =>
      have liftRest : ∀ {m' : List (Path × Digest)}, r ∈ (pass2 root n hs rest m').2 →
          ∃ q, (q, false) ∈ (p, false) :: rest ∧ r = Record.mk Tag.repoDrift (q.drop n) ∧
            ∃ rh ah, hs q = Option.some rh ∧ hs (root ++ q.drop n) = Option.some ah ∧
              (rh == ah) = false := by
        intro m' h
        obtain ⟨q, hq, hrest⟩ := ih.mp h
        exact ⟨q, List.mem_cons.mpr (Or.inr hq), hrest⟩
      cases hp : hs p with
      | none =>
        rw [pass2_cons_file_skip root n rest m (Or.inl hp), ih]
        constructor
        · rintro ⟨q, hq, hrest⟩
          exact ⟨q, List.mem_cons.mpr (Or.inr hq), hrest⟩
        · rintro ⟨q, hq, hr, rh, ah, hq1, hq2, hne⟩
          rcases List.mem_cons.mp hq with h | h
          · obtain rfl : q = p := congrArg Prod.fst h
            rw [hp] at hq1
            cases hq1
          · exact ⟨q, h, hr, rh, ah, hq1, hq2, hne⟩
      | some rh =>
        cases ha : hs (root ++ p.drop n) with
        | none =>
          rw [pass2_cons_file_skip root n rest m (Or.inr ha), ih]
          constructor
          · rintro ⟨q, hq, hrest⟩
            exact ⟨q, List.mem_cons.mpr (Or.inr hq), hrest⟩
          · rintro ⟨q, hq, hr, rh', ah', hq1, hq2, hne⟩
            rcases List.mem_cons.mp hq with h | h
            · obtain rfl : q = p := congrArg Prod.fst h
              rw [ha] at hq2
              cases hq2
            · exact ⟨q, h, hr, rh', ah', hq1, hq2, hne⟩
        | some ah =>
          cases hcmp : rh == ah with
          | true =>
            rw [pass2_cons_file_eq root n rest m hp ha hcmp, ih]
            constructor
            · rintro ⟨q, hq, hrest⟩
              exact ⟨q, List.mem_cons.mpr (Or.inr hq), hrest⟩
            · rintro ⟨q, hq, hr, rh', ah', hq1, hq2, hne⟩
              rcases List.mem_cons.mp hq with h | h
              · obtain rfl : q = p := congrArg Prod.fst h
                rw [hp] at hq1
                rw [ha] at hq2
                cases hq1
                cases hq2
                rw [hcmp] at hne
                cases hne
              · exact ⟨q, h, hr, rh', ah', hq1, hq2, hne⟩
          | false =>
            rw [pass2_cons_file_ne root n rest m hp ha hcmp]
            rw [show ∀ x l, (r ∈ x :: l) = (r = x ∨ r ∈ l) from fun x l => propext List.mem_cons]
            constructor
            · rintro (rfl | h)
              · exact ⟨p, List.mem_cons_self _ _, rfl, rh, ah, hp, ha, hcmp⟩
              · exact liftRest h
            · rintro ⟨q, hq, hr, rh', ah', hq1, hq2, hne⟩
              rcases List.mem_cons.mp hq with h | h
              · obtain rfl : q = p := congrArg Prod.fst h
                exact Or.inl hr
              · exact Or.inr (ih.mpr ⟨q, h, hr, rh', ah', hq1, hq2, hne⟩)

theorem pass2_snd_tag {root : Path} {n : Nat} {hs : Path → Option Digest}
    {es : List (Path × Bool)} {m : List (Path × Digest)} {r : Record}
    (h : r ∈ (pass2 root n hs es m).2) : r.tag = Tag.repoDrift := by
  obtain ⟨p, -, rfl, -⟩ := pass2_mem_snd.mp h
  rfl

theorem pass2_snd_indep (root : Path) (n : Nat) (hs : Path → Option Digest)
    (es : List (Path × Bool)) (m m' : List (Path × Digest)) :
    (pass2 root n hs es m).2 = (pass2 root n hs es m').2 := by
  induction es generalizing m m' with
  | nil => rw [pass2, pass2]
  | cons e rest ih =>
    obtain ⟨p, d⟩ := e
    cases d with
    | true => rw [pass2_cons_dir, pass2_cons_dir]; exact ih m m'
    | false =>
      cases hp : hs p with
      | none =>
        rw [pass2_cons_file_skip root n rest m (Or.inl hp),
          pass2_cons_file_skip root n rest m' (Or.inl hp)]
        exact ih _ _
      | some rh =>
        cases ha : hs (root ++ p.drop n) with
        | none =>
          rw [pass2_cons_file_skip root n rest m (Or.inr ha),
            pass2_cons_file_skip root n rest m' (Or.inr ha)]
          exact ih _ _
        | some ah =>
          cases hcmp : rh == ah with
          | true =>
            rw [pass2_cons_file_eq root n rest m hp ha hcmp,
              pass2_cons_file_eq root n rest m' hp ha hcmp]
            exact ih _ _
          | false =>
            rw [pass2_cons_file_ne root n rest m hp ha hcmp,
              pass2_cons_file_ne root n rest m' hp ha hcmp]
            rw [ih (m.filter fun e => !(e.1 == p.drop n)) (m'.filter fun e => !(e.1 == p.drop n))]

theorem pass2_snd_paths_sublist (root : Path) (n : Nat) (hs : Path → Option Digest)
    (es : List (Path × Bool)) (m : List (Path × Digest)) :
    List.Sublist ((pass2 root n hs es m).2.map Record.path) (relsOf n es) := by
  induction es generalizing m with
  | nil =>
    rw [pass2]
    simp [relsOf]
  | cons e rest ih =>
    obtain ⟨p, d⟩ := e
    cases d with
    | true =>
      rw [pass2_cons_dir, relsOf_cons_dir]
      exact ih m
    | false =>
      rw [relsOf_cons_file]
      cases hp : hs p with
      | none =>
        rw [pass2_cons_file_skip root n rest m (Or.inl hp)]
        exact (ih _).trans (List.sublist_cons_self _ _)
      | some rh =>
        cases ha : hs (root ++ p.drop n) with
        | none =>
          rw [pass2_cons_file_skip root n rest m (Or.inr ha)]
          exact (ih _).trans (List.sublist_cons_self _ _)
        | some ah =>
          cases hcmp : rh == ah with
          | true =>
            rw [pass2_cons_file_eq root n rest m hp ha hcmp]
            exact (ih _).trans (List.sublist_cons_self _ _)
          | false =>
            rw [pass2_cons_file_ne root n rest m hp ha hcmp]
            simp only [List.map_cons]
            exact List.Sublist.cons₂ _ (ih _)

/-! Characterizations of the two parallel pass bodies and of membership in
the final record list, split by tag. -/

theorem deletedCheck_eq_some {root : Path} {w : World} {p : Path} {r : Record} :
    deletedCheck root w p = Option.some r ↔
      (w.matched (root ++ p) false).isIgnore = false ∧
        w.metadataOk (root ++ p) = false ∧ r = Record.mk Tag.deleted p := by
  simp only [deletedCheck]
  by_cases hm : (w.matched (root ++ p) false).isIgnore = true
  · simp [hm]
  · rw [Bool.not_eq_true] at hm
    by_cases hk : w.metadataOk (root ++ p) = true
    · simp [hm, hk]
    · rw [Bool.not_eq_true] at hk
      simp [hm, hk, eq_comm]

theorem backupCheck_eq_some {root : Path} {w : World} {e : Path × Digest} {r : Record} :
    backupCheck root w e = Option.some r ↔
      (w.matchedParents (root ++ e.1) false).isIgnore = false ∧
        ∃ a, w.hash (root ++ e.1) = Option.some a ∧ (e.2 == a) = false ∧
          r = Record.mk Tag.backupDrift e.1 := by
  simp only [backupCheck]
  by_cases hm : (w.matchedParents (root ++ e.1) false).isIgnore = true
  · simp [hm]
  · rw [Bool.not_eq_true] at hm
    rw [if_neg (by rw [hm]; exact Bool.false_ne_true)]
    cases ha : w.hash (root ++ e.1) with
    | none =>
      change Option.none = Option.some r ↔ _
      constructor
      · intro h
        exact Option.noConfusion h
      · rintro ⟨-, a', ha', -, -⟩
        exact Option.noConfusion ha'
    | some a =>
      change (if (e.2 == a) = true then Option.none
        else Option.some (Record.mk Tag.backupDrift e.1)) = Option.some r ↔ _
      cases hcmp : e.2 == a with
      | true =>
        rw [if_pos rfl]
        constructor
        · intro h
          exact Option.noConfusion h
        · rintro ⟨-, a', ha', hne, -⟩
          injection ha' with h2
          rw [← h2] at hne
          rw [hcmp] at hne
          cases hne
      | false =>
        rw [if_neg Bool.false_ne_true]
        constructor
        · intro h
          injection h with h
          exact ⟨hm, a, rfl, hcmp, h.symm⟩
        · rintro ⟨-, a', ha', hne, hr⟩
          rw [hr]

theorem mem_runRecords {root repo : Path} {w : World} {lt rt : FSEntry}
    {pf : List Path} {pb : List (Path × Digest)} {r : Record} :
    r ∈ runRecords root repo w lt rt pf pb ↔
      r ∈ (pass1 root.length (liveEntries w lt) pf).2 ∨
      r ∈ (pass2 root repo.length w.hash (repoEntries rt) pb).2 ∨
      r ∈ (pass1 root.length (liveEntries w lt) pf).1.filterMap (deletedCheck root w) ∨
      r ∈ (pass2 root repo.length w.hash (repoEntries rt) pb).1.filterMap
            (backupCheck root w) := by
  simp only [runRecords, List.mem_append]
  tauto

theorem dblock_tag {root : Path} {w : World} {s : List Path} {r : Record}
    (h : r ∈ s.filterMap (deletedCheck root w)) : r.tag = Tag.deleted := by
  obtain ⟨p, -, hp⟩ := List.mem_filterMap.mp h
  obtain ⟨-, -, rfl⟩ := deletedCheck_eq_some.mp hp
  rfl

theorem bblock_tag {root : Path} {w : World} {m : List (Path × Digest)} {r : Record}
    (h : r ∈ m.filterMap (backupCheck root w)) : r.tag = Tag.backupDrift := by
  obtain ⟨e, -, he⟩ := List.mem_filterMap.mp h
  obtain ⟨-, a, -, -, rfl⟩ := backupCheck_eq_some.mp he
  rfl

theorem mem_runRecords_untracked {root repo : Path} {w : World} {lt rt : FSEntry}
    {pf : List Path} {pb : List (Path × Digest)} {p : Path} :
    Record.mk Tag.untracked p ∈ runRecords root repo w lt rt pf pb ↔
      Record.mk Tag.untracked p ∈ (pass1 root.length (liveEntries w lt) pf).2 := by
  rw [mem_runRecords]
  constructor
  · rintro (h | h | h | h)
    · exact h
    · cases pass2_snd_tag h
    · cases dblock_tag h
    · cases bblock_tag h
  · exact Or.inl

theorem mem_runRecords_repoDrift {root repo : Path} {w : World} {lt rt : FSEntry}
    {pf : List Path} {pb : List (Path × Digest)} {p : Path} :
    Record.mk Tag.repoDrift p ∈ runRecords root repo w lt rt pf pb ↔
      Record.mk Tag.repoDrift p ∈ (pass2 root repo.length w.hash (repoEntries rt) pb).2 := by
  rw [mem_runRecords]
  constructor
  · rintro (h | h | h | h)
    · cases pass1_snd_tag h
    · exact h
    · cases dblock_tag h
    · cases bblock_tag h
  · exact fun h => Or.inr (Or.inl h)

theorem mem_runRecords_deleted {root repo : Path} {w : World} {lt rt : FSEntry}
    {pf : List Path} {pb : List (Path × Digest)} {p : Path} :
    Record.mk Tag.deleted p ∈ runRecords root repo w lt rt pf pb ↔
      Record.mk Tag.deleted p ∈
        (pass1 root.length (liveEntries w lt) pf).1.filterMap (deletedCheck root w) := by
  rw [mem_runRecords]
  constructor
  · rintro (h | h | h | h)
    · cases pass1_snd_tag h
    · cases pass2_snd_tag h
    · exact h
    · cases bblock_tag h
  · exact fun h => Or.inr (Or.inr (Or.inl h))

theorem mem_runRecords_backupDrift {root repo : Path} {w : World} {lt rt : FSEntry}
    {pf : List Path} {pb : List (Path × Digest)} {p : Path} :
    Record.mk Tag.backupDrift p ∈ runRecords root repo w lt rt pf pb ↔
      Record.mk Tag.backupDrift p ∈
        (pass2 root repo.length w.hash (repoEntries rt) pb).1.filterMap
          (backupCheck root w) := by
  rw [mem_runRecords]
  constructor
  · rintro (h | h | h | h)
    · cases pass1_snd_tag h
    · cases pass2_snd_tag h
    · cases dblock_tag h
    · exact h
  · exact fun h => Or.inr (Or.inr (Or.inr h))

/-! Remaining small helpers. -/

theorem mem_relsOf {n : Nat} {es : List (Path × Bool)} {q : Path} :
    q ∈ relsOf n es ↔ ∃ e ∈ es, e.2 = false ∧ e.1.drop n = q := by
  rw [relsOf, List.mem_filterMap]
  constructor
  · rintro ⟨e, he, heq⟩
    cases hd : e.2 with
    | true => rw [hd] at heq; cases heq
    | false =>
      rw [hd] at heq
      simp only [Bool.false_eq_true, if_false] at heq
      injection heq with heq
      exact ⟨e, he, hd, heq⟩
  · rintro ⟨e, he, hd, heq⟩
    refine ⟨e, he, ?_⟩
    rw [hd]
    simp only [Bool.false_eq_true, if_false]
    rw [heq]

theorem isIgnore_eq_false {k : MatchKind} :
    k.isIgnore = false ↔ ¬ k = MatchKind.ignore := by
  cases k <;> simp [MatchKind.isIgnore]

theorem isNone_eq_false_of_ignore {k : MatchKind} (h : k = MatchKind.ignore) :
    k.isNone = false := by
  rw [h]
  rfl

theorem keys_nodup_val_eq {m : List (Path × Digest)} (hnd : (m.map Prod.fst).Nodup)
    {p : Path} {h₁ h₂ : Digest} (m₁ : (p, h₁) ∈ m) (m₂ : (p, h₂) ∈ m) : h₁ = h₂ := by
  induction m with
  | nil => cases m₁
  | cons e rest ih =>
    rw [List.map_cons, List.nodup_cons] at hnd
    rcases List.mem_cons.mp m₁ with rfl | m₁'
    · rcases List.mem_cons.mp m₂ with h | m₂'
      · exact (congrArg Prod.snd h.symm)
      · exact absurd (List.mem_map.mpr ⟨_, m₂', rfl⟩) hnd.1
    · rcases List.mem_cons.mp m₂ with rfl | m₂'
      · exact absurd (List.mem_map.mpr ⟨_, m₁', rfl⟩) hnd.1
      · exact ih hnd.2 m₁' m₂'

/-! The claims. -/

/-- C1. A path the exclusion matcher marks ignored never appears in the
Untracked, Deleted or Backup-drift output of a run; and the repo-drift pass
applies no exclusion filtering: its walk uses no predicate and its records and
map depend only on the hasher, so any world with the same hasher gives the
same repo pass. The matcher hypothesis `hpar` is the contract of
`matched_path_or_any_parents`, which reports at least what `matched` reports;
`hwf` says the walked paths live under the root, as `WalkDir::new(root)`
guarantees. -/
theorem c1_exclusion_correctness (root repo : Path) (w : World) (lt rt : FSEntry)
    (pf : List Path) (pb : List (Path × Digest)) (p : Path)
    (hwf : ∀ e ∈ liveEntries w lt, ∃ rel, e.1 = root ++ rel)
    (hpar : ∀ q d, w.matched q d = MatchKind.ignore → w.matchedParents q d = MatchKind.ignore)
    (hex : w.matched (root ++ p) false = MatchKind.ignore) :
    (Record.mk Tag.untracked p ∉ runRecords root repo w lt rt pf pb ∧
     Record.mk Tag.deleted p ∉ runRecords root repo w lt rt pf pb ∧
     Record.mk Tag.backupDrift p ∉ runRecords root repo w lt rt pf pb) ∧
    (∀ w' : World, w'.hash = w.hash →
      pass2 root repo.length w'.hash (repoEntries rt) pb =
        pass2 root repo.length w.hash (repoEntries rt) pb) := by
  refine ⟨⟨?_, ?_, ?_⟩, ?_⟩
  · intro hmem
    rw [mem_runRecords_untracked] at hmem
    obtain ⟨e, he, hef, heq⟩ := mem_relsOf.mp (pass1_mem_snd_rel hmem)
    obtain ⟨rel, hrel⟩ := hwf e he
    rw [hrel, List.drop_left] at heq
    subst heq
    have hpred : (w.matched e.1 e.2).isNone = true :=
      @mem_walkList_pred (fun q d => (w.matched q d).isNone) _ _ he
    rw [hrel, hef] at hpred
    rw [isNone_eq_false_of_ignore hex] at hpred
    cases hpred
  · intro hmem
    rw [mem_runRecords_deleted] at hmem
    obtain ⟨q, -, hq⟩ := List.mem_filterMap.mp hmem
    obtain ⟨hig, -, hr⟩ := deletedCheck_eq_some.mp hq
    obtain rfl : q = p := (congrArg Record.path hr).symm
    rw [hex] at hig
    cases hig
  · intro hmem
    rw [mem_runRecords_backupDrift] at hmem
    obtain ⟨e, -, he⟩ := List.mem_filterMap.mp hmem
    obtain ⟨hig, a, -, -, hr⟩ := backupCheck_eq_some.mp he
    obtain rfl : e.1 = p := (congrArg Record.path hr).symm
    rw [hpar _ _ hex] at hig
    cases hig
  · intro w' hw'
    rw [hw']

/-- Witness for C1 at a concrete input: an empty live tree, an always-ignore
matcher and the path `a` under root `/`. -/
theorem c1_exclusion_correctness_witness :
    (∀ e ∈ liveEntries wIgnoreAll FSEntry.err, ∃ rel, e.1 = ['/'] ++ rel) ∧
    (∀ q d, wIgnoreAll.matched q d = MatchKind.ignore →
      wIgnoreAll.matchedParents q d = MatchKind.ignore) ∧
    wIgnoreAll.matched (['/'] ++ ['a']) false = MatchKind.ignore ∧
    ((Record.mk Tag.untracked ['a'] ∉ runRecords ['/'] ['/'] wIgnoreAll .err .err [] [] ∧
      Record.mk Tag.deleted ['a'] ∉ runRecords ['/'] ['/'] wIgnoreAll .err .err [] [] ∧
      Record.mk Tag.backupDrift ['a'] ∉ runRecords ['/'] ['/'] wIgnoreAll .err .err [] []) ∧
     (∀ w' : World, w'.hash = wIgnoreAll.hash →
       pass2 ['/'] (['/'] : Path).length w'.hash (repoEntries .err) [] =
         pass2 ['/'] (['/'] : Path).length wIgnoreAll.hash (repoEntries .err) [])) := by
  refine ⟨?_, fun _ _ h => h, rfl, ?_⟩
  · intro e he
    simp [liveEntries, walkEntries, walkList] at he
  · exact c1_exclusion_correctness ['/'] ['/'] wIgnoreAll .err .err [] [] ['a']
      (by intro e he; simp [liveEntries, walkEntries, walkList] at he)
      (fun _ _ h => h) rfl

/-- C2. No path carries both the `R` and the `B` tag in one run: every
non-directory reference-tree path is removed from the backup map during the
repo pass, before the backup pass reads the remaining map. -/
theorem c2_repo_backup_disjoint (root repo : Path) (w : World) (lt rt : FSEntry)
    (pf : List Path) (pb : List (Path × Digest)) (p : Path)
    (hR : Record.mk Tag.repoDrift p ∈ runRecords root repo w lt rt pf pb) :
    Record.mk Tag.backupDrift p ∉ runRecords root repo w lt rt pf pb := by
  intro hB
  rw [mem_runRecords_repoDrift] at hR
  obtain ⟨q, hq, hr, -⟩ := pass2_mem_snd.mp hR
  have hrel : p ∈ relsOf repo.length (repoEntries rt) := by
    rw [mem_relsOf]
    exact ⟨(q, false), hq, rfl, (congrArg Record.path hr).symm⟩
  rw [mem_runRecords_backupDrift] at hB
  obtain ⟨e, he, hee⟩ := List.mem_filterMap.mp hB
  obtain ⟨-, a, -, -, hr'⟩ := backupCheck_eq_some.mp hee
  obtain rfl : e.1 = p := (congrArg Record.path hr').symm
  rw [pass2_fst_eq, List.mem_filter] at he
  have := he.2
  rw [Bool.not_eq_eq_eq_not, Bool.not_true] at this
  exact absurd hrel (fun hmem => by rw [contains_iff_mem.mpr hmem] at this; cases this)

/-- Witness for C2 at a concrete input: a one-file reference tree whose copy
hashes differently from the live copy, producing an `R` record for `a`. -/
theorem c2_repo_backup_disjoint_witness :
    Record.mk Tag.repoDrift ['a'] ∈
      runRecords ['/'] ['/', 'r', '/'] wRepoDiff .err (.ok ['/', 'r', '/', 'a'] false []) [] [] ∧
    Record.mk Tag.backupDrift ['a'] ∉
      runRecords ['/'] ['/', 'r', '/'] wRepoDiff .err (.ok ['/', 'r', '/', 'a'] false []) [] [] := by
  have hR : Record.mk Tag.repoDrift ['a'] ∈
      runRecords ['/'] ['/', 'r', '/'] wRepoDiff .err (.ok ['/', 'r', '/', 'a'] false []) [] [] := by
    rw [mem_runRecords_repoDrift, pass2_mem_snd]
    refine ⟨['/', 'r', '/', 'a'], ?_, rfl, ['x'], ['y'], rfl, rfl, rfl⟩
    simp [repoEntries, walkEntries, walkList]
  exact ⟨hR, c2_repo_backup_disjoint _ _ _ _ _ _ _ _ hR⟩

/-- C3. Owned-file-set semantics of the untracked pass: a path owned at load
time is gone from the set after the pass exactly when the filtered walk
observed a non-directory entry at the corresponding live path; an observed
owned path is never reported, and an observed path that is not owned is
reported as Untracked. `hwf` says walked paths live under the root; the
`Nodup` hypotheses hold of a `HashSet` enumeration and of a real directory
walk (distinct entries have distinct paths). -/
theorem c3_owned_set_semantics (root repo : Path) (w : World) (lt rt : FSEntry)
    (pf : List Path) (pb : List (Path × Digest)) (P : Path)
    (hwf : ∀ e ∈ liveEntries w lt, ∃ rel, e.1 = root ++ rel)
    (hnd : pf.Nodup)
    (hwnd : (relsOf root.length (liveEntries w lt)).Nodup)
    (hP : P ∈ pf) :
    (P ∉ (pass1 root.length (liveEntries w lt) pf).1 ↔
      (root ++ P, false) ∈ liveEntries w lt) ∧
    ((root ++ P, false) ∈ liveEntries w lt →
      Record.mk Tag.untracked P ∉ runRecords root repo w lt rt pf pb) ∧
    (∀ Q, (root ++ Q, false) ∈ liveEntries w lt → Q ∉ pf →
      Record.mk Tag.untracked Q ∈ runRecords root repo w lt rt pf pb) := by
  refine ⟨?_, ?_, ?_⟩
  · rw [pass1_mem_fst hnd]
    constructor
    · intro hne
      have h2 : ¬ ∀ e ∈ liveEntries w lt, e.2 = false → ¬ e.1.drop root.length = P :=
        fun hall => hne ⟨hP, hall⟩
      push_neg at h2
      obtain ⟨e, he, hef, heq⟩ := h2
      obtain ⟨rel, hrel⟩ := hwf e he
      rw [hrel, List.drop_left] at heq
      subst heq
      have hpair : (root ++ rel, false) = (e.1, e.2) := by rw [hrel, hef]
      rw [hpair, Prod.mk.eta]
      exact he
    · intro hobs hand
      exact hand.2 (root ++ P, false) hobs rfl (List.drop_left root P)
  · intro hobs hmem
    rw [mem_runRecords_untracked] at hmem
    exact pass1_not_reported hnd hwnd hP hmem
  · intro Q hobs hQ
    rw [mem_runRecords_untracked]
    apply pass1_reported hQ
    rw [mem_relsOf]
    exact ⟨(root ++ Q, false), hobs, rfl, List.drop_left root Q⟩

/-- Witness for C3 at a concrete input: an empty live walk and a single owned
path `a`; the equivalence degenerates to "still in the set, never observed". -/
theorem c3_owned_set_semantics_witness :
    (∀ e ∈ liveEntries wNoneAll FSEntry.err, ∃ rel, e.1 = ['/'] ++ rel) ∧
    ([['a']] : List Path).Nodup ∧
    (relsOf (['/'] : Path).length (liveEntries wNoneAll FSEntry.err)).Nodup ∧
    (['a'] : Path) ∈ [['a']] ∧
    ((['a'] : Path) ∉ (pass1 (['/'] : Path).length (liveEntries wNoneAll FSEntry.err) [['a']]).1 ↔
      (['/'] ++ ['a'], false) ∈ liveEntries wNoneAll FSEntry.err) ∧
    ((['/'] ++ ['a'], false) ∈ liveEntries wNoneAll FSEntry.err →
      Record.mk Tag.untracked ['a'] ∉ runRecords ['/'] ['/'] wNoneAll .err .err [['a']] []) ∧
    (∀ Q, (['/'] ++ Q, false) ∈ liveEntries wNoneAll FSEntry.err → Q ∉ [['a']] →
      Record.mk Tag.untracked Q ∈ runRecords ['/'] ['/'] wNoneAll .err .err [['a']] []) := by
  have h1 : ∀ e ∈ liveEntries wNoneAll FSEntry.err, ∃ rel, e.1 = ['/'] ++ rel := by
    intro e he
    simp [liveEntries, walkEntries, walkList] at he
  have h3 : (relsOf (['/'] : Path).length (liveEntries wNoneAll FSEntry.err)).Nodup := by
    simp [liveEntries, walkEntries, walkList, relsOf]
  refine ⟨h1, by simp, h3, by simp, ?_⟩
  exact c3_owned_set_semantics ['/'] ['/'] wNoneAll .err .err [['a']] [] ['a']
    h1 (by simp) h3 (by simp)

/-- C4. The deleted pass, for a path that survived the untracked pass: a
directly excluded path produces no record in the pass; otherwise a Deleted
record appears in the run exactly when `stat` fails, and when `stat` succeeds
the pass emits nothing for the path (the embedding is total, so nothing can
fail here). -/
theorem c4_deleted_pass (root repo : Path) (w : World) (lt rt : FSEntry)
    (pf : List Path) (pb : List (Path × Digest)) (p : Path)
    (hp : p ∈ (pass1 root.length (liveEntries w lt) pf).1) :
    ((w.matched (root ++ p) false).isIgnore = true →
      ∀ t, Record.mk t p ∉
        (pass1 root.length (liveEntries w lt) pf).1.filterMap (deletedCheck root w)) ∧
    ((w.matched (root ++ p) false).isIgnore = false →
      (Record.mk Tag.deleted p ∈ runRecords root repo w lt rt pf pb ↔
        w.metadataOk (root ++ p) = false) ∧
      (w.metadataOk (root ++ p) = true →
        ∀ t, Record.mk t p ∉
          (pass1 root.length (liveEntries w lt) pf).1.filterMap (deletedCheck root w))) := by
  constructor
  · intro hig t hmem
    obtain ⟨q, -, hq⟩ := List.mem_filterMap.mp hmem
    obtain ⟨hig', -, hr⟩ := deletedCheck_eq_some.mp hq
    obtain rfl : q = p := (congrArg Record.path hr).symm
    rw [hig] at hig'
    cases hig'
  · intro hig
    constructor
    · constructor
      · intro hmem
        rw [mem_runRecords_deleted] at hmem
        obtain ⟨q, -, hq⟩ := List.mem_filterMap.mp hmem
        obtain ⟨-, hmeta, hr⟩ := deletedCheck_eq_some.mp hq
        obtain rfl : q = p := (congrArg Record.path hr).symm
        exact hmeta
      · intro hmeta
        rw [mem_runRecords_deleted]
        exact List.mem_filterMap.mpr ⟨p, hp, deletedCheck_eq_some.mpr ⟨hig, hmeta, rfl⟩⟩
    · intro hmeta t hmem
      obtain ⟨q, -, hq⟩ := List.mem_filterMap.mp hmem
      obtain ⟨-, hmeta', hr⟩ := deletedCheck_eq_some.mp hq
      obtain rfl : q = p := (congrArg Record.path hr).symm
      rw [hmeta] at hmeta'
      cases hmeta'

/-- Witness for C4 at a concrete input: an empty live walk, the owned path `a`
not excluded, `stat` failing everywhere, so the Deleted record appears. -/
theorem c4_deleted_pass_witness :
    (['a'] : Path) ∈ (pass1 (['/'] : Path).length (liveEntries wNoneAll FSEntry.err) [['a']]).1 ∧
    (((wNoneAll.matched (['/'] ++ ['a']) false).isIgnore = true →
      ∀ t, Record.mk t ['a'] ∉
        (pass1 (['/'] : Path).length (liveEntries wNoneAll FSEntry.err) [['a']]).1.filterMap
          (deletedCheck ['/'] wNoneAll)) ∧
    ((wNoneAll.matched (['/'] ++ ['a']) false).isIgnore = false →
      (Record.mk Tag.deleted ['a'] ∈ runRecords ['/'] ['/'] wNoneAll .err .err [['a']] [] ↔
        wNoneAll.metadataOk (['/'] ++ ['a']) = false) ∧
      (wNoneAll.metadataOk (['/'] ++ ['a']) = true →
        ∀ t, Record.mk t ['a'] ∉
          (pass1 (['/'] : Path).length (liveEntries wNoneAll FSEntry.err) [['a']]).1.filterMap
            (deletedCheck ['/'] wNoneAll)))) := by
  have hp : (['a'] : Path) ∈
      (pass1 (['/'] : Path).length (liveEntries wNoneAll FSEntry.err) [['a']]).1 := by
    simp [liveEntries, walkEntries, walkList, pass1]
  exact ⟨hp, c4_deleted_pass ['/'] ['/'] wNoneAll .err .err [['a']] [] ['a'] hp⟩

/-- C5. The backup pass, for an entry that survived the repo pass: a path
whose parent-aware exclusion query reports ignored produces no record in the
pass; with hashing failing, no record either; with a successful hash, a
Backup-drift record appears in the run exactly when the computed digest
differs from the recorded one. The key `Nodup` hypothesis holds of a
`HashMap` enumeration. -/
theorem c5_backup_pass (root repo : Path) (w : World) (lt rt : FSEntry)
    (pf : List Path) (pb : List (Path × Digest)) (p : Path) (h : Digest)
    (hkeys : (pb.map Prod.fst).Nodup)
    (hmem : (p, h) ∈ (pass2 root repo.length w.hash (repoEntries rt) pb).1) :
    ((w.matchedParents (root ++ p) false).isIgnore = true →
      ∀ t, Record.mk t p ∉
        (pass2 root repo.length w.hash (repoEntries rt) pb).1.filterMap (backupCheck root w)) ∧
    ((w.matchedParents (root ++ p) false).isIgnore = false →
      (w.hash (root ++ p) = Option.none →
        ∀ t, Record.mk t p ∉
          (pass2 root repo.length w.hash (repoEntries rt) pb).1.filterMap (backupCheck root w)) ∧
      (∀ a, w.hash (root ++ p) = Option.some a →
        (Record.mk Tag.backupDrift p ∈ runRecords root repo w lt rt pf pb ↔
          (h == a) = false))) := by
  have hm1keys : (((pass2 root repo.length w.hash (repoEntries rt) pb).1.map Prod.fst)).Nodup := by
    rw [pass2_fst_eq]
    exact ((List.filter_sublist _).map Prod.fst).nodup hkeys
  constructor
  · intro hig t hmem'
    obtain ⟨e, -, he⟩ := List.mem_filterMap.mp hmem'
    obtain ⟨hig', a, -, -, hr⟩ := backupCheck_eq_some.mp he
    obtain rfl : e.1 = p := (congrArg Record.path hr).symm
    rw [hig] at hig'
    cases hig'
  · intro hig
    constructor
    · intro hnone t hmem'
      obtain ⟨e, -, he⟩ := List.mem_filterMap.mp hmem'
      obtain ⟨-, a, ha, -, hr⟩ := backupCheck_eq_some.mp he
      obtain rfl : e.1 = p := (congrArg Record.path hr).symm
      rw [hnone] at ha
      cases ha
    · intro a ha
      constructor
      · intro hmem'
        rw [mem_runRecords_backupDrift] at hmem'
        obtain ⟨e, he', hee⟩ := List.mem_filterMap.mp hmem'
        obtain ⟨-, a', ha', hne, hr⟩ := backupCheck_eq_some.mp hee
        obtain hpe : e.1 = p := (congrArg Record.path hr).symm
        rw [hpe] at ha'
        rw [ha] at ha'
        injection ha' with ha'
        obtain ⟨e1, e2⟩ := e
        obtain rfl : e1 = p := hpe
        have he2 : e2 = h := keys_nodup_val_eq hm1keys he' hmem
        rw [← ha', he2] at hne
        exact hne
      · intro hne
        rw [mem_runRecords_backupDrift]
        exact List.mem_filterMap.mpr
          ⟨(p, h), hmem, backupCheck_eq_some.mpr ⟨hig, a, ha, hne, rfl⟩⟩

/-- Witness for C5 at a concrete input: an empty repo walk, one backup entry
for `a` with recorded digest `h`, the hasher failing everywhere, the matcher
matching nothing. -/
theorem c5_backup_pass_witness :
    (([(['a'], ['h'])] : List (Path × Digest)).map Prod.fst).Nodup ∧
    ((['a'], ['h']) : Path × Digest) ∈
      (pass2 ['/'] (['/'] : Path).length wNoneAll.hash (repoEntries FSEntry.err)
        [(['a'], ['h'])]).1 ∧
    (((wNoneAll.matchedParents (['/'] ++ ['a']) false).isIgnore = true →
      ∀ t, Record.mk t ['a'] ∉
        (pass2 ['/'] (['/'] : Path).length wNoneAll.hash (repoEntries FSEntry.err)
          [(['a'], ['h'])]).1.filterMap (backupCheck ['/'] wNoneAll)) ∧
    ((wNoneAll.matchedParents (['/'] ++ ['a']) false).isIgnore = false →
      (wNoneAll.hash (['/'] ++ ['a']) = Option.none →
        ∀ t, Record.mk t ['a'] ∉
          (pass2 ['/'] (['/'] : Path).length wNoneAll.hash (repoEntries FSEntry.err)
            [(['a'], ['h'])]).1.filterMap (backupCheck ['/'] wNoneAll)) ∧
      (∀ a, wNoneAll.hash (['/'] ++ ['a']) = Option.some a →
        (Record.mk Tag.backupDrift ['a'] ∈
          runRecords ['/'] ['/'] wNoneAll .err .err [] [(['a'], ['h'])] ↔
            ((['h'] : Digest) == a) = false)))) := by
  have hmem : ((['a'], ['h']) : Path × Digest) ∈
      (pass2 ['/'] (['/'] : Path).length wNoneAll.hash (repoEntries FSEntry.err)
        [(['a'], ['h'])]).1 := by
    simp [repoEntries, walkEntries, walkList, pass2]
  exact ⟨by simp, hmem,
    c5_backup_pass ['/'] ['/'] wNoneAll .err .err [] [(['a'], ['h'])] ['a'] ['h']
      (by simp) hmem⟩

/-- C7. Per-path I/O failures are contained: when hashing the live copy of a
path fails (`hash_file_logged` returns `None`, the failure having been
logged), the path is reported neither as repo drift nor as backup drift —
a file whose hash cannot be computed is neither "matching" nor "mismatching".
Walk error items likewise contribute nothing to any walk. The embedding of
the run is a total function, so no per-path failure can abort it. -/
theorem c7_io_failure_containment (root repo : Path) (w : World) (lt rt : FSEntry)
    (pf : List Path) (pb : List (Path × Digest)) (p : Path)
    (hfail : w.hash (root ++ p) = Option.none) :
    Record.mk Tag.repoDrift p ∉ runRecords root repo w lt rt pf pb ∧
    Record.mk Tag.backupDrift p ∉ runRecords root repo w lt rt pf pb ∧
    (∀ (pred : Path → Bool → Bool) (ts : List FSEntry),
      walkList pred (FSEntry.err :: ts) = walkList pred ts) := by
  refine ⟨?_, ?_, ?_⟩
  · intro hmem
    rw [mem_runRecords_repoDrift] at hmem
    obtain ⟨q, -, hr, rh, ah, -, h2, -⟩ := pass2_mem_snd.mp hmem
    have hq : q.drop repo.length = p := (congrArg Record.path hr).symm
    rw [hq, hfail] at h2
    cases h2
  · intro hmem
    rw [mem_runRecords_backupDrift] at hmem
    obtain ⟨e, -, he⟩ := List.mem_filterMap.mp hmem
    obtain ⟨-, a, ha, -, hr⟩ := backupCheck_eq_some.mp he
    obtain rfl : e.1 = p := (congrArg Record.path hr).symm
    rw [hfail] at ha
    cases ha
  · intro pred ts
    rw [walkList]

/-- Witness for C7 at a concrete input: the always-failing hasher and the
path `a` under root `/`. -/
theorem c7_io_failure_containment_witness :
    wNoneAll.hash (['/'] ++ ['a']) = Option.none ∧
    (Record.mk Tag.repoDrift ['a'] ∉ runRecords ['/'] ['/'] wNoneAll .err .err [] [] ∧
     Record.mk Tag.backupDrift ['a'] ∉ runRecords ['/'] ['/'] wNoneAll .err .err [] [] ∧
     (∀ (pred : Path → Bool → Bool) (ts : List FSEntry),
       walkList pred (FSEntry.err :: ts) = walkList pred ts)) :=
  ⟨rfl, c7_io_failure_containment ['/'] ['/'] wNoneAll .err .err [] [] ['a'] rfl⟩

/-- C8, counterexample. The claim says all four path options are normalized to
end with a path separator; but `App::new` touches only `root` and `repo`: with
the database directory `d` and the rule directory `e`, neither ends with `/`
after normalization. -/
theorem c8_counterexample :
    ¬ ((normalizeArgs ⟨['/'], ['d'], ['/'], ['e']⟩).dbpath.getLast? = some '/' ∧
       (normalizeArgs ⟨['/'], ['d'], ['/'], ['e']⟩).ignore.getLast? = some '/') := by
  decide

/-- C8, amended. Of the four path-valued options, exactly the live root and
the reference-repo directory are normalized to end with a path separator by
`App::new`; the package-database and exclusion-rule directories are passed on
unchanged. -/
theorem c8_normalization (a : Args) :
    (normalizeArgs a).root.getLast? = some '/' ∧
    (normalizeArgs a).repo.getLast? = some '/' ∧
    (normalizeArgs a).dbpath = a.dbpath ∧
    (normalizeArgs a).ignore = a.ignore := by
  refine ⟨?_, ?_, rfl, rfl⟩
  · simp only [normalizeArgs, normalizeDir]
    by_cases hr : a.root.getLast? = some '/'
    · rw [if_pos hr]
      exact hr
    · rw [if_neg hr]
      exact List.getLast?_concat _
  · simp only [normalizeArgs, normalizeDir]
    by_cases hr : a.repo.getLast? = some '/'
    · rw [if_pos hr]
      exact hr
    · rw [if_neg hr]
      exact List.getLast?_concat _

/-- C10. The deleted pass checks exclusion with the direct, non-parent-aware
query (and `is_dir` fixed to `false`), unlike the backup pass: a package-owned
path absent from disk whose exclusion stems only from a parent-matching rule
(the parent-aware query says ignored, the direct query does not) still gets a
Deleted record, while the backup pass would skip that same path. -/
theorem c10_deleted_direct_exclusion (root repo : Path) (w : World) (lt rt : FSEntry)
    (pf : List Path) (pb : List (Path × Digest)) (p : Path)
    (hp : p ∈ (pass1 root.length (liveEntries w lt) pf).1)
    (hdir : ¬ w.matched (root ++ p) false = MatchKind.ignore)
    (hparent : w.matchedParents (root ++ p) false = MatchKind.ignore)
    (hmeta : w.metadataOk (root ++ p) = false) :
    Record.mk Tag.deleted p ∈ runRecords root repo w lt rt pf pb ∧
    ∀ t, Record.mk t p ∉
      (pass2 root repo.length w.hash (repoEntries rt) pb).1.filterMap (backupCheck root w) := by
  constructor
  · rw [mem_runRecords_deleted]
    exact List.mem_filterMap.mpr
      ⟨p, hp, deletedCheck_eq_some.mpr ⟨isIgnore_eq_false.mpr hdir, hmeta, rfl⟩⟩
  · intro t hmem
    obtain ⟨e, -, he⟩ := List.mem_filterMap.mp hmem
    obtain ⟨hig, a, -, -, hr⟩ := backupCheck_eq_some.mp he
    obtain rfl : e.1 = p := (congrArg Record.path hr).symm
    rw [hparent] at hig
    cases hig

/-- Witness for C10 at a concrete input: the owned path `a`, a matcher that
reports ignored only through the parent-aware query, and `stat` failing. -/
theorem c10_deleted_direct_exclusion_witness :
    (['a'] : Path) ∈
      (pass1 (['/'] : Path).length (liveEntries wParentIgnore FSEntry.err) [['a']]).1 ∧
    ¬ wParentIgnore.matched (['/'] ++ ['a']) false = MatchKind.ignore ∧
    wParentIgnore.matchedParents (['/'] ++ ['a']) false = MatchKind.ignore ∧
    wParentIgnore.metadataOk (['/'] ++ ['a']) = false ∧
    (Record.mk Tag.deleted ['a'] ∈
      runRecords ['/'] ['/'] wParentIgnore .err .err [['a']] [] ∧
    ∀ t, Record.mk t ['a'] ∉
      (pass2 ['/'] (['/'] : Path).length wParentIgnore.hash (repoEntries FSEntry.err)
        []).1.filterMap (backupCheck ['/'] wParentIgnore)) := by
  have hp : (['a'] : Path) ∈
      (pass1 (['/'] : Path).length (liveEntries wParentIgnore FSEntry.err) [['a']]).1 := by
    simp [liveEntries, walkEntries, walkList, pass1]
  exact ⟨hp, by simp [wParentIgnore], rfl, rfl,
    c10_deleted_direct_exclusion ['/'] ['/'] wParentIgnore .err .err [['a']] [] ['a']
      hp (by simp [wParentIgnore]) rfl rfl⟩

/-! The comparator used by the report sink. -/

theorem recPathLe_trans (a b c : Record) (hab : recPathLe a b) (hbc : recPathLe b c) :
    recPathLe a c :=
  strLe_trans hab hbc

theorem recPathLe_total (a b : Record) : recPathLe a b || recPathLe b a := by
  rw [Bool.or_eq_true]
  exact strLe_total a.path b.path

/-- C6. The report: one line per divergence record (the sorted list is a
permutation of the records), each line being the tag character, one space,
then the root re-joined with the relative path; and the lines come out sorted
ascending by the full path under lexicographic comparison — the comparator
`recPathLe` compares only the path, so the tag is no part of the sort key,
and sorting by the relative path coincides with sorting by the printed
absolute path because the root is a common prefix. -/
theorem c6_report_format (root repo : Path) (w : World) (lt rt : FSEntry)
    (pf : List Path) (pb : List (Path × Digest)) :
    runOutput root repo w lt rt pf pb =
      (runSorted root repo w lt rt pf pb).map (lineOf root) ∧
    (runSorted root repo w lt rt pf pb).Perm (runRecords root repo w lt rt pf pb) ∧
    List.Pairwise (fun a b : Record => strLe (root ++ a.path) (root ++ b.path) = true)
      (runSorted root repo w lt rt pf pb) := by
  refine ⟨rfl, List.mergeSort_perm _ _, ?_⟩
  have hs : (runSorted root repo w lt rt pf pb).Pairwise (fun a b => recPathLe a b) :=
    List.sorted_mergeSort recPathLe_trans recPathLe_total _
  exact hs.imp fun h => by rw [strLe_append_left]; exact h

/-! Stability of the sort: a list whose equal-path records appear in strictly
increasing pass order has a unique stable sort, independent of the
enumeration order of the hash set and map. -/

theorem Tag.idx_inj {t₁ t₂ : Tag} (h : t₁.idx = t₂.idx) : t₁ = t₂ := by
  cases t₁ <;> cases t₂ <;> first | rfl | (exfalso; simp [Tag.idx] at h)

theorem recOrdered_antisymm {x y : Record} (hxy : recOrdered x y) (hyx : recOrdered y x) :
    x = y := by
  obtain ⟨hp1, ht1⟩ := hxy
  obtain ⟨hp2, ht2⟩ := hyx
  have hpath : x.path = y.path := strLe_antisymm hp1 hp2
  have htag : x.tag = y.tag :=
    Tag.idx_inj (Nat.le_antisymm (ht1 hpath) (ht2 hpath.symm))
  obtain ⟨t1, p1⟩ := x
  obtain ⟨t2, p2⟩ := y
  simp only at hpath htag
  rw [hpath, htag]

theorem pair_mem_asymm {α : Type} [DecidableEq α] {s : List α} {a b : α} (hab : ¬ a = b)
    (ca : s.count a ≤ 1) (cb : s.count b ≤ 1)
    (h1 : List.Sublist [a, b] s) (h2 : List.Sublist [b, a] s) : False := by
  induction s with
  | nil => cases h1
  | cons c t ih =>
    have hca : t.count a ≤ (c :: t).count a := by
      rw [List.count_cons]
      exact Nat.le_add_right _ _
    have hcb : t.count b ≤ (c :: t).count b := by
      rw [List.count_cons]
      exact Nat.le_add_right _ _
    cases h1 with
    | cons _ h1' =>
      cases h2 with
      | cons _ h2' =>
        exact ih (le_trans hca ca) (le_trans hcb cb) h1' h2'
      | cons₂ _ h2' =>
        have hbt : b ∈ t := h1'.subset (by simp)
        have : 2 ≤ (b :: t).count b := by
          rw [List.count_cons_self]
          have := List.count_pos_iff.mpr hbt
          omega
        omega
    | cons₂ _ h1' =>
      cases h2 with
      | cons _ h2' =>
        have hat : a ∈ t := h2'.subset (by simp)
        have : 2 ≤ (a :: t).count a := by
          rw [List.count_cons_self]
          have := List.count_pos_iff.mpr hat
          omega
        omega
      | cons₂ _ h2' =>
        exact hab rfl

theorem mem_mem_sublist {α : Type} [DecidableEq α] {l : List α} {a b : α}
    (ha : a ∈ l) (hb : b ∈ l) (hab : ¬ a = b) :
    List.Sublist [a, b] l ∨ List.Sublist [b, a] l := by
  induction l with
  | nil => cases ha
  | cons c t ih =>
    by_cases hca : c = a
    · subst hca
      have hbt : b ∈ t := by
        rcases List.mem_cons.mp hb with rfl | h
        · exact absurd rfl hab
        · exact h
      exact Or.inl (List.Sublist.cons₂ _ (List.singleton_sublist.mpr hbt))
    · by_cases hcb : c = b
      · subst hcb
        have hat : a ∈ t := by
          rcases List.mem_cons.mp ha with rfl | h
          · exact absurd rfl hab
          · exact h
        exact Or.inr (List.Sublist.cons₂ _ (List.singleton_sublist.mpr hat))
      · have hat : a ∈ t := by
          rcases List.mem_cons.mp ha with rfl | h
          · exact absurd rfl hca
          · exact h
        have hbt : b ∈ t := by
          rcases List.mem_cons.mp hb with rfl | h
          · exact absurd rfl hcb
          · exact h
        rcases ih hat hbt with h | h
        · exact Or.inl (h.cons _)
        · exact Or.inr (h.cons _)

theorem count_le_one_of_tieLT {l : List Record} (h : l.Pairwise tieLT) (a : Record) :
    l.count a ≤ 1 := by
  by_contra hc
  have hdup : List.Duplicate a l := List.duplicate_iff_two_le_count.mpr (by omega)
  have hsub : List.Sublist [a, a] l := List.duplicate_iff_sublist.mp hdup
  have := List.pairwise_iff_forall_sublist.mp h hsub rfl
  omega

theorem sorted_recOrdered {l : List Record} (h : l.Pairwise tieLT) :
    (l.mergeSort recPathLe).Pairwise recOrdered := by
  have hs : (l.mergeSort recPathLe).Pairwise (fun a b => recPathLe a b) :=
    List.sorted_mergeSort recPathLe_trans recPathLe_total l
  rw [List.pairwise_iff_forall_sublist]
  intro a b hsub
  refine ⟨List.pairwise_iff_forall_sublist.mp hs hsub, ?_⟩
  intro hpath
  by_contra hidx
  have hlt : b.tag.idx < a.tag.idx := Nat.lt_of_not_le hidx
  have hne : ¬ a = b := fun he => by rw [he] at hlt; omega
  have ha : a ∈ l := (List.mergeSort_perm l recPathLe).subset (hsub.subset (by simp))
  have hb : b ∈ l := (List.mergeSort_perm l recPathLe).subset (hsub.subset (by simp))
  rcases mem_mem_sublist ha hb hne with hor | hor
  · have := List.pairwise_iff_forall_sublist.mp h hor hpath
    omega
  · have hba : recPathLe b a = true := by
      rw [recPathLe, ← hpath]
      exact strLe_refl a.path
    have hsub2 := List.pair_sublist_mergeSort recPathLe_trans recPathLe_total hba hor
    have hcount : ∀ x : Record, (l.mergeSort recPathLe).count x ≤ 1 := fun x => by
      rw [(List.mergeSort_perm l recPathLe).count_eq]
      exact count_le_one_of_tieLT h x
    exact pair_mem_asymm hne (hcount a) (hcount b) hsub hsub2

theorem stable_sort_unique {l₁ l₂ : List Record} (hperm : l₁.Perm l₂)
    (h₁ : l₁.Pairwise tieLT) (h₂ : l₂.Pairwise tieLT) :
    l₁.mergeSort recPathLe = l₂.mergeSort recPathLe := by
  have hanti : ∀ (a b : Record), a ∈ l₁.mergeSort recPathLe →
      b ∈ l₂.mergeSort recPathLe → recOrdered a b → recOrdered b a → a = b :=
    fun a b _ _ hab hba => recOrdered_antisymm hab hba
  exact List.Perm.eq_of_sorted hanti (sorted_recOrdered h₁) (sorted_recOrdered h₂)
    ((List.mergeSort_perm l₁ recPathLe).trans
      (hperm.trans (List.mergeSort_perm l₂ recPathLe).symm))

theorem filterMap_deletedCheck_paths (root : Path) (w : World) (s : List Path) :
    List.Sublist ((s.filterMap (deletedCheck root w)).map Record.path) s := by
  induction s with
  | nil => simp
  | cons p t ih =>
    rw [List.filterMap_cons]
    cases hd : deletedCheck root w p with
    | none => exact ih.trans (List.sublist_cons_self _ _)
    | some r =>
      obtain ⟨-, -, rfl⟩ := deletedCheck_eq_some.mp hd
      rw [List.map_cons]
      exact List.Sublist.cons₂ _ ih

theorem filterMap_backupCheck_paths (root : Path) (w : World) (m : List (Path × Digest)) :
    List.Sublist ((m.filterMap (backupCheck root w)).map Record.path) (m.map Prod.fst) := by
  induction m with
  | nil => simp
  | cons e t ih =>
    rw [List.filterMap_cons, List.map_cons]
    cases hd : backupCheck root w e with
    | none => exact ih.trans (List.sublist_cons_self _ _)
    | some r =>
      obtain ⟨-, a, -, -, rfl⟩ := backupCheck_eq_some.mp hd
      rw [List.map_cons]
      exact List.Sublist.cons₂ _ ih

theorem pairwise_of_paths_nodup {l : List Record} (h : (l.map Record.path).Nodup) :
    l.Pairwise tieLT := by
  have := List.pairwise_map.mp h
  exact this.imp fun hne hpath => absurd hpath hne

theorem runRecords_tieLT (root repo : Path) (w : World) (lt rt : FSEntry)
    (pf : List Path) (pb : List (Path × Digest))
    (hnd : pf.Nodup) (hkeys : (pb.map Prod.fst).Nodup)
    (hlive : (relsOf root.length (liveEntries w lt)).Nodup)
    (hrepo : (relsOf repo.length (repoEntries rt)).Nodup) :
    (runRecords root repo w lt rt pf pb).Pairwise tieLT := by
  have cross : ∀ {x y : Record}, x.tag.idx < y.tag.idx → tieLT x y := fun h _ => h
  have hq : (pass1 root.length (liveEntries w lt) pf).2.Pairwise tieLT :=
    pairwise_of_paths_nodup ((pass1_snd_paths_sublist _ _ _).nodup hlive)
  have hr : (pass2 root repo.length w.hash (repoEntries rt) pb).2.Pairwise tieLT :=
    pairwise_of_paths_nodup ((pass2_snd_paths_sublist _ _ _ _ _).nodup hrepo)
  have hs1 : (pass1 root.length (liveEntries w lt) pf).1.Nodup :=
    (pass1_fst_sublist _ _ _).nodup hnd
  have hd : ((pass1 root.length (liveEntries w lt) pf).1.filterMap
      (deletedCheck root w)).Pairwise tieLT :=
    pairwise_of_paths_nodup ((filterMap_deletedCheck_paths _ _ _).nodup hs1)
  have hm1 : ((pass2 root repo.length w.hash (repoEntries rt) pb).1.map Prod.fst).Nodup := by
    rw [pass2_fst_eq]
    exact ((List.filter_sublist _).map Prod.fst).nodup hkeys
  have hb : ((pass2 root repo.length w.hash (repoEntries rt) pb).1.filterMap
      (backupCheck root w)).Pairwise tieLT :=
    pairwise_of_paths_nodup ((filterMap_backupCheck_paths _ _ _).nodup hm1)
  simp only [runRecords]
  rw [List.pairwise_append]
  refine ⟨?_, hb, ?_⟩
  · rw [List.pairwise_append]
    refine ⟨?_, hd, ?_⟩
    · rw [List.pairwise_append]
      exact ⟨hq, hr, fun x hx y hy =>
        cross (by rw [pass1_snd_tag hx, pass2_snd_tag hy]; decide)⟩
    · intro x hx y hy
      rcases List.mem_append.mp hx with h | h
      · exact cross (by rw [pass1_snd_tag h, dblock_tag hy]; decide)
      · exact cross (by rw [pass2_snd_tag h, dblock_tag hy]; decide)
  · intro x hx y hy
    rcases List.mem_append.mp hx with h | h
    · rcases List.mem_append.mp h with h' | h'
      · exact cross (by rw [pass1_snd_tag h', bblock_tag hy]; decide)
      · exact cross (by rw [pass2_snd_tag h', bblock_tag hy]; decide)
    · exact cross (by rw [dblock_tag h, bblock_tag hy]; decide)

theorem runRecords_perm (root repo : Path) (w : World) (lt rt : FSEntry)
    {pf₁ pf₂ : List Path} {pb₁ pb₂ : List (Path × Digest)}
    (hpf : pf₁.Perm pf₂) (hpb : pb₁.Perm pb₂) :
    (runRecords root repo w lt rt pf₁ pb₁).Perm (runRecords root repo w lt rt pf₂ pb₂) := by
  obtain ⟨hperm1, heq1⟩ := @pass1_perm root.length (liveEntries w lt) _ _ hpf
  have hbperm : ((pass2 root repo.length w.hash (repoEntries rt) pb₁).1).Perm
      ((pass2 root repo.length w.hash (repoEntries rt) pb₂).1) := by
    rw [pass2_fst_eq, pass2_fst_eq]
    exact hpb.filter _
  simp only [runRecords]
  rw [heq1, pass2_snd_indep root repo.length w.hash (repoEntries rt) pb₁ pb₂]
  exact ((List.Perm.refl _).append (hperm1.filterMap _)).append (hbperm.filterMap _)

/-- C9. Determinism of the full report despite the unordered iteration of the
owned-file `HashSet` and the backup `HashMap`: two runs against the same
filesystem, matcher and hasher, whose set and map enumerations are
permutations of each other, print byte-identical sorted output. The
`Nodup` hypotheses hold of any `HashSet`/`HashMap` enumeration and of any
real directory walk. The proof rests on the stability of `sort_by`: equal
paths can meet only across distinct passes, whose blocks are appended in a
fixed order. -/
theorem c9_deterministic_output (root repo : Path) (w : World) (lt rt : FSEntry)
    (pf₁ pf₂ : List Path) (pb₁ pb₂ : List (Path × Digest))
    (hpf : pf₁.Perm pf₂) (hpb : pb₁.Perm pb₂)
    (hnd : pf₁.Nodup) (hkeys : (pb₁.map Prod.fst).Nodup)
    (hlive : (relsOf root.length (liveEntries w lt)).Nodup)
    (hrepo : (relsOf repo.length (repoEntries rt)).Nodup) :
    runOutput root repo w lt rt pf₁ pb₁ = runOutput root repo w lt rt pf₂ pb₂ := by
  have hnd₂ : pf₂.Nodup := hpf.nodup_iff.mp hnd
  have hkeys₂ : (pb₂.map Prod.fst).Nodup := (hpb.map Prod.fst).nodup_iff.mp hkeys
  rw [runOutput, runOutput, runSorted, runSorted,
    stable_sort_unique (runRecords_perm root repo w lt rt hpf hpb)
      (runRecords_tieLT root repo w lt rt pf₁ pb₁ hnd hkeys hlive hrepo)
      (runRecords_tieLT root repo w lt rt pf₂ pb₂ hnd₂ hkeys₂ hlive hrepo)]

/-- Witness for C9 at a concrete input: the owned set enumerated in the two
opposite orders. -/
theorem c9_deterministic_output_witness :
    ([['a'], ['b']] : List Path).Perm [['b'], ['a']] ∧
    ([] : List (Path × Digest)).Perm [] ∧
    ([['a'], ['b']] : List Path).Nodup ∧
    (([] : List (Path × Digest)).map Prod.fst).Nodup ∧
    (relsOf (['/'] : Path).length (liveEntries wNoneAll FSEntry.err)).Nodup ∧
    (relsOf (['/'] : Path).length (repoEntries FSEntry.err)).Nodup ∧
    runOutput ['/'] ['/'] wNoneAll .err .err [['a'], ['b']] [] =
      runOutput ['/'] ['/'] wNoneAll .err .err [['b'], ['a']] [] := by
  have hlive : (relsOf (['/'] : Path).length (liveEntries wNoneAll FSEntry.err)).Nodup := by
    simp [liveEntries, walkEntries, walkList, relsOf]
  have hrepo : (relsOf (['/'] : Path).length (repoEntries FSEntry.err)).Nodup := by
    simp [repoEntries, walkEntries, walkList, relsOf]
  exact ⟨List.Perm.swap ['b'] ['a'] [], List.Perm.refl [], by decide, by simp, hlive, hrepo,
    c9_deterministic_output ['/'] ['/'] wNoneAll .err .err [['a'], ['b']] [['b'], ['a']] [] []
      (List.Perm.swap ['b'] ['a'] []) (List.Perm.refl []) (by decide) (by simp) hlive hrepo⟩

end Archdiff
